import Mathlib

/-!
Verification of the backpropagation network in `nn.py`.

The source is a small numpy program: a feedforward network whose state is a
sequence of weight matrices plus a transient activation cache.  We embed it
shallowly: numpy 2-D float arrays become `Mat` (explicit row/column counts
with a total real-valued entry function), `np.dot` becomes `matMul` (sum over
the left factor's column range), elementwise operations act entrywise, and
Python's mutation of `self.activations` / `self.weights` becomes explicit
state passing on the `SimpleNetwork` structure.  Floating-point arithmetic is
idealised as real arithmetic.
-/

noncomputable section

/-- A dense 2-D real matrix in the style of a numpy array: explicit shape and
a total entry function (entries outside the shape are irrelevant junk, as in
any shallow embedding of unchecked array indexing). -/
structure Mat where
  rows : ℕ
  cols : ℕ
  entry : ℕ → ℕ → ℝ

/-- Default matrix used where Python list indexing would be out of range. -/
def dummyMat : Mat := ⟨0, 0, fun _ _ => 0⟩

/-- `sig_func` from nn.py: the logistic sigmoid `1 / (1 + exp(-val))`. -/
def sig_func (val : ℝ) : ℝ := 1 / (1 + Real.exp (-val))

/-- `sig_func_g` from nn.py: derivative of the sigmoid,
`sig_func(val) * (1 - sig_func(val))`. -/
def sig_func_g (val : ℝ) : ℝ := sig_func val * (1 - sig_func val)

/-- `np.dot` on 2-D arrays: matrix product, summing over the left factor's
columns. -/
def matMul (A B : Mat) : Mat :=
  ⟨A.rows, B.cols, fun i j => ∑ k ∈ Finset.range A.cols, A.entry i k * B.entry k j⟩

/-- numpy `.T`: matrix transpose. -/
def Mat.transpose (A : Mat) : Mat := ⟨A.cols, A.rows, fun i j => A.entry j i⟩

/-- Elementwise subtraction `A - B` (shapes agree in every use in nn.py). -/
def matSub (A B : Mat) : Mat :=
  ⟨A.rows, A.cols, fun i j => A.entry i j - B.entry i j⟩

/-- `np.multiply`: elementwise (Hadamard) product. -/
def hadamard (A B : Mat) : Mat :=
  ⟨A.rows, A.cols, fun i j => A.entry i j * B.entry i j⟩

/-- Scalar times matrix, as in `learning_rate * grad`. -/
def scalarMul (c : ℝ) (M : Mat) : Mat :=
  ⟨M.rows, M.cols, fun i j => c * M.entry i j⟩

/-- Matrix divided entrywise by a natural number, as in `x / n_input`. -/
def scalarDivNat (M : Mat) (n : ℕ) : Mat :=
  ⟨M.rows, M.cols, fun i j => M.entry i j / (n : ℝ)⟩

/-- `sig_func` applied elementwise to a matrix (numpy broadcasting of
`sig_func` over an array). -/
def sigElem (M : Mat) : Mat :=
  ⟨M.rows, M.cols, fun i j => sig_func (M.entry i j)⟩

/-- `sig_func_g` applied elementwise to a matrix. -/
def sigDerivElem (M : Mat) : Mat :=
  ⟨M.rows, M.cols, fun i j => sig_func_g (M.entry i j)⟩

/-- The state of a `SimpleNetwork` instance: the tuple `self.weights` and the
activation cache `self.activations`. -/
structure SimpleNetwork where
  weights : List Mat
  activations : List Mat

/-- `SimpleNetwork.__init__`: store the given weight matrices and initialise
the activation cache to the empty list. -/
def SimpleNetwork.ofWeights (ws : List Mat) : SimpleNetwork := ⟨ws, []⟩

/-- `SimpleNetwork.random`: `zip(layer_units, layer_units[1:])` paired with a
freshly sampled uniform matrix per pair.  The call to `np.random.uniform` is
abstracted as an explicit sampler `uniform n_in n_out` supplying the sampled
`(n_in, n_out)` matrix; the structure of the construction (which shapes are
requested, how many matrices are built) is exactly that of the source. -/
def SimpleNetwork.random (uniform : ℕ → ℕ → Mat) (layer_units : List ℕ) :
    SimpleNetwork :=
  SimpleNetwork.ofWeights
    ((layer_units.zip layer_units.tail).map fun p => uniform p.1 p.2)

/-- The activation list built by `predict`: `activations = [input_matrix]`
followed by one `sig_func(np.dot(last, weight))` per weight, i.e. a left
scan. -/
def actsList (weights : List Mat) (X : Mat) : List Mat :=
  List.scanl (fun h w => sigElem (matMul h w)) X weights

/-- The value returned by `SimpleNetwork.predict`: the last element of the
activation list (the list is never empty, so the `getLastD` default `X` is
never used). -/
def predictOut (net : SimpleNetwork) (X : Mat) : Mat :=
  (actsList net.weights X).getLastD X

/-- `SimpleNetwork.predict` with its side effect made explicit: it overwrites
`self.activations` with the fresh activation list and returns the final
activation. -/
def predictRun (net : SimpleNetwork) (X : Mat) : SimpleNetwork × Mat :=
  (⟨net.weights, actsList net.weights X⟩, (actsList net.weights X).getLastD X)

/-- `SimpleNetwork.predict_zero_one`:
`np.where(self.predict(input_matrix) < 0.5, 0, 1)`. -/
def predict_zero_one (net : SimpleNetwork) (X : Mat) : Mat :=
  let p := predictOut net X
  ⟨p.rows, p.cols, fun i j => if p.entry i j < 0.5 then 0 else 1⟩

/-- Modelled from the spec (§4.1 predict): the forward pass as the spec words
it, iterating `activation_{l+1} = sigmoid(activation_l × weight_l)` over the
weight matrices in order, starting from the input. -/
def predictSpecIter (weights : List Mat) (X : Mat) : Mat :=
  weights.foldl (fun h w => sigElem (matMul h w)) X

/-- The `while layer >= 1` loop of `SimpleNetwork.gradients`, with the loop
counter, the running `g_last` and the accumulated `grad` list (front
insertion) passed explicitly.  At counter value `l+1` the body reads
`weights[l+1]`, `activations[l]` and `weights[l]`, exactly as the source
reads `weights[layer]`, `activations[layer-1]`, `weights[layer-1]`. -/
def backLoop (weights acts : List Mat) : ℕ → Mat → List Mat → List Mat
  | 0, _, grad => grad
  | l + 1, g_last, grad =>
      let error_l := (matMul (weights.getD (l + 1) dummyMat) g_last).transpose
      let a_last := matMul (acts.getD l dummyMat) (weights.getD l dummyMat)
      let g_next := (hadamard error_l (sigDerivElem a_last)).transpose
      backLoop weights acts l g_next
        ((matMul g_next (acts.getD l dummyMat)).transpose :: grad)

/-- `SimpleNetwork.gradients`: forward pass, output-layer error and seed
gradient, the backward while-loop, then division of every accumulated matrix
by `n_input = input_matrix.shape[0]`. -/
def SimpleNetwork.gradients (net : SimpleNetwork) (X y : Mat) : List Mat :=
  let layer := net.weights.length - 1
  let acts := actsList net.weights X
  let h_lastest := acts.getLastD X
  let error_lastest := matSub h_lastest y
  let a_lastest := matMul (acts.getD layer dummyMat) (net.weights.getD layer dummyMat)
  let g_lastest := (hadamard error_lastest (sigDerivElem a_lastest)).transpose
  let grad := backLoop net.weights acts layer g_lastest
    [(matMul g_lastest (acts.getD layer dummyMat)).transpose]
  grad.map fun x => scalarDivNat x X.rows

/-- Modelled from the spec (§4.1 gradients, step 6): the backward walk as the
spec words it, dividing each gradient by `N` at the moment it is formed
instead of at the end. -/
def specBack (weights acts : List Mat) (N : ℕ) : ℕ → Mat → List Mat → List Mat
  | 0, _, grad => grad
  | l + 1, g_next, grad =>
      let error_l := (matMul (weights.getD (l + 1) dummyMat) g_next).transpose
      let a_l := matMul (acts.getD l dummyMat) (weights.getD l dummyMat)
      let g_l := (hadamard error_l (sigDerivElem a_l)).transpose
      specBack weights acts N l g_l
        (scalarDivNat (matMul g_l (acts.getD l dummyMat)).transpose N :: grad)

/-- Modelled from the spec (§4.1 gradients, steps 1-7): run the forward pass,
form `error_L = h_L - y`, gate it by `sigmoid'(a_L)` to get `g_L`, take
`grad_{L-1} = (g_L × h_{L-1})ᵗ / N`, then walk backward from layer `L-1` down
to layer 1 producing each remaining gradient already divided by `N`. -/
def gradientsSpec (net : SimpleNetwork) (X y : Mat) : List Mat :=
  let L := net.weights.length
  let acts := actsList net.weights X
  let h_L := acts.getLastD X
  let error_L := matSub h_L y
  let a_L := matMul (acts.getD (L - 1) dummyMat) (net.weights.getD (L - 1) dummyMat)
  let g_L := (hadamard error_L (sigDerivElem a_L)).transpose
  specBack net.weights acts X.rows (L - 1) g_L
    [scalarDivNat (matMul g_L (acts.getD (L - 1) dummyMat)).transpose X.rows]

/-- One iteration of the `train` loop: compute the gradients, then perform the
in-place `weight -= learning_rate * grad` update over `zip(gradients,
self.weights)`.  Positions of `self.weights` beyond the zip's length keep
their old value, which is exactly what the truncating `zip` plus in-place
mutation does; the activation cache afterwards is the one written by the
forward pass inside `gradients`. -/
def SimpleNetwork.trainStep (net : SimpleNetwork) (X y : Mat)
    (learning_rate : ℝ) : SimpleNetwork :=
  let grads := net.gradients X y
  ⟨List.zipWith (fun w g => matSub w (scalarMul learning_rate g)) net.weights grads
      ++ net.weights.drop grads.length,
    actsList net.weights X⟩

/-- `SimpleNetwork.train`: `for _ in range(0, iterations)` repetitions of
`trainStep`; a negative `iterations` gives an empty range, i.e.
`iterations.toNat` repetitions.  Defaults are `iterations=10`,
`learning_rate=0.1` as in the source. -/
def SimpleNetwork.train (net : SimpleNetwork) (X y : Mat)
    (iterations : ℤ := 10) (learning_rate : ℝ := 0.1) : SimpleNetwork :=
  (fun m => SimpleNetwork.trainStep m X y learning_rate)^[iterations.toNat] net

/-- Modelled from the spec (§4.1 train): one update step as the spec words it,
replacing each weight matrix `w_l` by `w_l - learning_rate * grad_l`, one
gradient per weight. -/
def trainStepSpec (net : SimpleNetwork) (X y : Mat)
    (learning_rate : ℝ) : SimpleNetwork :=
  ⟨List.zipWith (fun w g => matSub w (scalarMul learning_rate g)) net.weights
      (net.gradients X y),
    actsList net.weights X⟩

/-- Modelled from the spec (§4.1 random construction): fails (`none`) when
fewer than two layer sizes are given, otherwise builds one uniform matrix per
consecutive pair of layer sizes. -/
def randomSpec (uniform : ℕ → ℕ → Mat) (layer_units : List ℕ) :
    Option SimpleNetwork :=
  if layer_units.length < 2 then none
  else some (SimpleNetwork.ofWeights
    ((layer_units.zip layer_units.tail).map fun p => uniform p.1 p.2))

/-- A concrete sampler for instantiating `SimpleNetwork.random`. -/
def uniformConst : ℕ → ℕ → Mat := fun m n => ⟨m, n, fun _ _ => 0⟩

/-- Concrete 1×1 zero matrix for witnesses. -/
def M0 : Mat := ⟨1, 1, fun _ _ => 0⟩

/-- Concrete 1×1 matrix with entry 2 (outside the unit interval). -/
def M2 : Mat := ⟨1, 1, fun _ _ => 2⟩

/-- Concrete one-weight network for witnesses. -/
def net1 : SimpleNetwork := SimpleNetwork.ofWeights [M0]

/-- Concrete zero-weight network (the explicit constructor with no
arguments). -/
def net0 : SimpleNetwork := SimpleNetwork.ofWeights []

theorem getLastD_scanl {α β : Type} (f : β → α → β) :
    ∀ (l : List α) (b d : β), (List.scanl f b l).getLastD d = List.foldl f b l := by
  intro l
  induction l with
  | nil => intro b d; simp [List.scanl_nil]
  | cons a t ih =>
      intro b d
      rw [List.scanl_cons, List.foldl_cons]
      simp only [List.singleton_append, List.getLastD_cons]
      exact ih (f b a) b

theorem predictOut_eq_foldl (net : SimpleNetwork) (X : Mat) :
    predictOut net X = List.foldl (fun h w => sigElem (matMul h w)) X net.weights :=
  getLastD_scanl _ net.weights X X

theorem specBack_eq_map_backLoop (weights acts : List Mat) (N : ℕ) :
    ∀ (k : ℕ) (g : Mat) (grad : List Mat),
      specBack weights acts N k g (grad.map fun x => scalarDivNat x N) =
        (backLoop weights acts k g grad).map fun x => scalarDivNat x N := by
  intro k
  induction k with
  | zero => intro g grad; rfl
  | succ l ih =>
      intro g grad
      rw [specBack, backLoop]
      exact ih _ (_ :: grad)

theorem backLoop_length (weights acts : List Mat) :
    ∀ (k : ℕ) (g : Mat) (grad : List Mat),
      (backLoop weights acts k g grad).length = k + grad.length := by
  intro k
  induction k with
  | zero => intro g grad; simp [backLoop]
  | succ l ih =>
      intro g grad
      rw [backLoop, ih]
      simp only [List.length_cons]
      omega

theorem gradients_length (net : SimpleNetwork) (X y : Mat) :
    (net.gradients X y).length = (net.weights.length - 1) + 1 := by
  unfold SimpleNetwork.gradients
  rw [List.length_map, backLoop_length]
  simp

theorem weights_le_gradients_length (net : SimpleNetwork) (X y : Mat) :
    net.weights.length ≤ (net.gradients X y).length := by
  rw [gradients_length]; omega

theorem trainStep_eq_spec (net : SimpleNetwork) (X y : Mat) (lr : ℝ) :
    net.trainStep X y lr = trainStepSpec net X y lr := by
  have h := weights_le_gradients_length net X y
  simp only [SimpleNetwork.trainStep, trainStepSpec]
  rw [List.drop_eq_nil_of_le h, List.append_nil]

theorem sig_func_mem_unit_interval (x : ℝ) : 0 < sig_func x ∧ sig_func x < 1 := by
  have h := Real.exp_pos (-x)
  constructor
  · unfold sig_func
    positivity
  · unfold sig_func
    rw [div_lt_one (by linarith)]
    linarith

theorem foldl_step_cons_sigElem :
    ∀ (ws : List Mat) (w X : Mat),
      ∃ M, List.foldl (fun h w' => sigElem (matMul h w')) X (w :: ws) = sigElem M := by
  intro ws
  induction ws with
  | nil => intro w X; exact ⟨matMul X w, rfl⟩
  | cons w2 ws2 ih =>
      intro w X
      rw [List.foldl_cons]
      exact ih w2 (sigElem (matMul X w))

theorem upd_weights_length (lr : ℝ) :
    ∀ (ws gs : List Mat),
      (List.zipWith (fun w g => matSub w (scalarMul lr g)) ws gs
          ++ ws.drop gs.length).length = ws.length := by
  intro ws
  induction ws with
  | nil => intro gs; simp
  | cons w ws2 ih =>
      intro gs
      cases gs with
      | nil => simp
      | cons g gs2 =>
          simp only [List.zipWith_cons_cons, List.length_cons, List.drop_succ_cons,
            List.cons_append, List.length_cons]
          rw [ih gs2]

theorem upd_weights_getD_shape (lr : ℝ) :
    ∀ (ws gs : List Mat) (i : ℕ),
      (((List.zipWith (fun w g => matSub w (scalarMul lr g)) ws gs
            ++ ws.drop gs.length).getD i dummyMat).rows =
          (ws.getD i dummyMat).rows) ∧
        ((List.zipWith (fun w g => matSub w (scalarMul lr g)) ws gs
            ++ ws.drop gs.length).getD i dummyMat).cols =
          (ws.getD i dummyMat).cols := by
  intro ws
  induction ws with
  | nil => intro gs i; simp
  | cons w ws2 ih =>
      intro gs i
      cases gs with
      | nil => simp
      | cons g gs2 =>
          simp only [List.zipWith_cons_cons, List.drop_succ_cons, List.cons_append]
          cases i with
          | zero => exact ⟨rfl, rfl⟩
          | succ i2 =>
              simp only [List.getD_cons_succ]
              exact ih gs2 i2

theorem trainStep_weights_length (net : SimpleNetwork) (X y : Mat) (lr : ℝ) :
    (net.trainStep X y lr).weights.length = net.weights.length :=
  upd_weights_length lr net.weights (net.gradients X y)

theorem trainStep_weights_shape (net : SimpleNetwork) (X y : Mat) (lr : ℝ)
    (i : ℕ) :
    ((net.trainStep X y lr).weights.getD i dummyMat).rows =
        (net.weights.getD i dummyMat).rows ∧
      ((net.trainStep X y lr).weights.getD i dummyMat).cols =
        (net.weights.getD i dummyMat).cols :=
  upd_weights_getD_shape lr net.weights (net.gradients X y) i

theorem random_short_weights_eq_nil (uniform : ℕ → ℕ → Mat) :
    ∀ (layer_units : List ℕ), layer_units.length < 2 →
      (SimpleNetwork.random uniform layer_units).weights = [] := by
  intro layer_units h
  cases layer_units with
  | nil => rfl
  | cons a t =>
      cases t with
      | nil => rfl
      | cons b t2 => simp only [List.length_cons] at h; omega

/-- C1: for a network with at least one weight matrix and an input with at
least one row, `gradients` returns exactly the list of matrices of the spec's
backpropagation procedure (seed gradient from the output-layer error, then
the backward walk, each gradient divided by `N`), with one gradient per
weight matrix in the same order as the weights. -/
theorem gradients_match_spec_procedure (net : SimpleNetwork) (X y : Mat)
    (hL : 1 ≤ net.weights.length) (_hN : 1 ≤ X.rows) :
    net.gradients X y = gradientsSpec net X y ∧
      (net.gradients X y).length = net.weights.length := by
  constructor
  · simp only [SimpleNetwork.gradients, gradientsSpec]
    exact (specBack_eq_map_backLoop net.weights (actsList net.weights X) X.rows
      (net.weights.length - 1) _ [_]).symm
  · rw [gradients_length]
    omega

theorem gradients_match_spec_procedure_witness :
    1 ≤ net1.weights.length ∧ 1 ≤ M0.rows ∧
      (net1.gradients M0 M0 = gradientsSpec net1 M0 M0 ∧
        (net1.gradients M0 M0).length = net1.weights.length) :=
  ⟨by decide, by decide,
    gradients_match_spec_procedure net1 M0 M0 (by decide) (by decide)⟩

/-- C2: `predict` equals the spec's forward iteration
`h_{l+1} = sigmoid(h_l × w_l)` folded over the weights in order; in
particular a single-layer network predicts `sigmoid(X × W)` elementwise. -/
theorem predict_eq_forward_iteration :
    (∀ (net : SimpleNetwork) (X : Mat),
        predictOut net X = predictSpecIter net.weights X) ∧
      ∀ (W X : Mat) (cache : List Mat),
        predictOut ⟨[W], cache⟩ X = sigElem (matMul X W) := by
  constructor
  · intro net X
    exact predictOut_eq_foldl net X
  · intro W X cache
    rw [predictOut_eq_foldl]
    rfl

/-- C3: `train` performs exactly `iterations` repetitions (none when
`iterations` is non-positive) of the spec's update step — compute the
gradients then replace each weight `w_l` by `w_l - learning_rate * grad_l` —
and its default arguments are `iterations = 10`, `learning_rate = 0.1`. -/
theorem train_is_iterated_gradient_descent (net : SimpleNetwork) (X y : Mat)
    (iterations : ℤ) (lr : ℝ) :
    net.train X y iterations lr =
        (fun m => trainStepSpec m X y lr)^[iterations.toNat] net ∧
      (iterations ≤ 0 → net.train X y iterations lr = net) ∧
      net.train X y = net.train X y 10 0.1 := by
  refine ⟨?_, ?_, rfl⟩
  · unfold SimpleNetwork.train
    have hstep : (fun m => SimpleNetwork.trainStep m X y lr) =
        fun m => trainStepSpec m X y lr :=
      funext fun m => trainStep_eq_spec m X y lr
    rw [hstep]
  · intro h
    unfold SimpleNetwork.train
    rw [Int.toNat_of_nonpos h]
    rfl

theorem train_is_iterated_gradient_descent_witness :
    (-3 : ℤ) ≤ 0 ∧ net1.train M0 M0 (-3) 0.1 = net1 :=
  ⟨by decide,
    (train_is_iterated_gradient_descent net1 M0 M0 (-3) 0.1).2.1 (by decide)⟩

/-- C4 counterexample: on the zero-weight network the prediction for the
input matrix `[[2]]` has the entry 2, which does not lie in the open unit
interval — so the claim fails for networks "however constructed, with any
number of weight matrices". -/
theorem predict_unit_interval_counterexample :
    ¬ (0 < (predictOut net0 M2).entry 0 0 ∧ (predictOut net0 M2).entry 0 0 < 1) := by
  intro hc
  have h2 : (predictOut net0 M2).entry 0 0 = 2 := rfl
  rw [h2] at hc
  linarith [hc.2]

/-- C4 (amended): for every network with at least one weight matrix, every
entry of `predict`'s output lies strictly in the open interval (0,1). -/
theorem predict_entries_in_unit_interval (net : SimpleNetwork) (X : Mat)
    (hL : 1 ≤ net.weights.length) (i j : ℕ) :
    0 < (predictOut net X).entry i j ∧ (predictOut net X).entry i j < 1 := by
  rw [predictOut_eq_foldl]
  obtain ⟨w, ws, hw⟩ := List.exists_cons_of_ne_nil
    (List.length_pos.mp (by omega) : net.weights ≠ [])
  rw [hw]
  obtain ⟨M, hM⟩ := foldl_step_cons_sigElem ws w X
  rw [hM]
  exact sig_func_mem_unit_interval (M.entry i j)

theorem predict_entries_in_unit_interval_witness :
    1 ≤ net1.weights.length ∧
      (0 < (predictOut net1 M2).entry 0 0 ∧ (predictOut net1 M2).entry 0 0 < 1) :=
  ⟨by decide, predict_entries_in_unit_interval net1 M2 (by decide) 0 0⟩

/-- C5 counterexample: called with the single layer size 5, `random` returns
a network (with zero weight matrices) while the spec-mandated behaviour is a
failure (`none`). -/
theorem random_single_size_counterexample :
    SimpleNetwork.random uniformConst [5] = SimpleNetwork.ofWeights [] ∧
      randomSpec uniformConst [5] = none := by
  constructor
  · rfl
  · rfl

/-- C5 (amended): `random` called with fewer than two layer sizes does not
fail; it returns a network holding zero weight matrices. -/
theorem random_few_sizes_returns_empty_network (uniform : ℕ → ℕ → Mat)
    (layer_units : List ℕ) (h : layer_units.length < 2) :
    (SimpleNetwork.random uniform layer_units).weights = [] :=
  random_short_weights_eq_nil uniform layer_units h

theorem random_few_sizes_returns_empty_network_witness :
    ([5] : List ℕ).length < 2 ∧
      (SimpleNetwork.random uniformConst [5]).weights = [] :=
  ⟨by decide, random_few_sizes_returns_empty_network uniformConst [5] (by decide)⟩

/-- C6: `predict_zero_one` has the same shape as `predict`, every entry is 0
or 1, and an entry is 1 exactly when the corresponding `predict` entry is at
least 0.5. -/
theorem predict_zero_one_thresholds (net : SimpleNetwork) (X : Mat) :
    (predict_zero_one net X).rows = (predictOut net X).rows ∧
      (predict_zero_one net X).cols = (predictOut net X).cols ∧
      ∀ i j : ℕ,
        ((predict_zero_one net X).entry i j = 0 ∨
            (predict_zero_one net X).entry i j = 1) ∧
          ((predict_zero_one net X).entry i j = 1 ↔
            (0.5 : ℝ) ≤ (predictOut net X).entry i j) := by
  refine ⟨rfl, rfl, fun i j => ?_⟩
  have he : (predict_zero_one net X).entry i j =
      if (predictOut net X).entry i j < 0.5 then 0 else 1 := rfl
  rw [he]
  by_cases h : (predictOut net X).entry i j < 0.5
  · rw [if_pos h]
    exact ⟨Or.inl rfl,
      ⟨fun h1 => absurd h1 (by norm_num), fun h2 => absurd h2 (not_le.mpr h)⟩⟩
  · rw [if_neg h]
    exact ⟨Or.inr rfl, ⟨fun _ => le_of_not_lt h, fun _ => rfl⟩⟩

/-- C7: after any number of `train` iterations the network holds the same
number of weight matrices and every weight matrix keeps its original row and
column counts. -/
theorem train_preserves_weight_shapes (net : SimpleNetwork) (X y : Mat)
    (iterations : ℤ) (lr : ℝ) :
    (net.train X y iterations lr).weights.length = net.weights.length ∧
      ∀ i : ℕ,
        ((net.train X y iterations lr).weights.getD i dummyMat).rows =
            (net.weights.getD i dummyMat).rows ∧
          ((net.train X y iterations lr).weights.getD i dummyMat).cols =
            (net.weights.getD i dummyMat).cols := by
  have key : ∀ (n : ℕ) (m : SimpleNetwork),
      (((fun m' => SimpleNetwork.trainStep m' X y lr)^[n] m).weights.length =
          m.weights.length) ∧
        ∀ i : ℕ,
          (((fun m' => SimpleNetwork.trainStep m' X y lr)^[n] m).weights.getD i
                dummyMat).rows = (m.weights.getD i dummyMat).rows ∧
            (((fun m' => SimpleNetwork.trainStep m' X y lr)^[n] m).weights.getD i
                dummyMat).cols = (m.weights.getD i dummyMat).cols := by
    intro n
    induction n with
    | zero => intro m; exact ⟨rfl, fun i => ⟨rfl, rfl⟩⟩
    | succ k ih =>
        intro m
        rw [Function.iterate_succ_apply]
        obtain ⟨h1, h2⟩ := ih (m.trainStep X y lr)
        refine ⟨h1.trans (trainStep_weights_length m X y lr), fun i => ?_⟩
        exact ⟨(h2 i).1.trans (trainStep_weights_shape m X y lr i).1,
          (h2 i).2.trans (trainStep_weights_shape m X y lr i).2⟩
  exact key iterations.toNat net

/-- C9: `predict` is deterministic and idempotent in its observable output:
it leaves the weights unchanged, and a second call on the same input (through
the state left behind by the first call, including the overwritten activation
cache) returns an identical output matrix. -/
theorem predict_idempotent (net : SimpleNetwork) (X : Mat) :
    (predictRun (predictRun net X).1 X).2 = (predictRun net X).2 ∧
      (predictRun net X).1.weights = net.weights :=
  ⟨rfl, rfl⟩

/-- C10: a network holding zero weight matrices — built by the explicit
constructor with no weights, or by `random` with fewer than two layer sizes
— predicts the input matrix itself, unchanged. -/
theorem predict_empty_network_identity :
    (∀ (net : SimpleNetwork) (X : Mat), net.weights = [] → predictOut net X = X) ∧
      ∀ (uniform : ℕ → ℕ → Mat) (layer_units : List ℕ) (X : Mat),
        layer_units.length < 2 →
          predictOut (SimpleNetwork.random uniform layer_units) X = X := by
  have key : ∀ (net : SimpleNetwork) (X : Mat),
      net.weights = [] → predictOut net X = X := by
    intro net X h
    rw [predictOut_eq_foldl, h]
    rfl
  refine ⟨key, fun uniform layer_units X h => key _ X ?_⟩
  exact random_short_weights_eq_nil uniform layer_units h

theorem predict_empty_network_identity_witness :
    (net0.weights = [] ∧ predictOut net0 M2 = M2) ∧
      ([7] : List ℕ).length < 2 ∧
        predictOut (SimpleNetwork.random uniformConst [7]) M2 = M2 :=
  ⟨⟨rfl, predict_empty_network_identity.1 net0 M2 rfl⟩,
    by decide, predict_empty_network_identity.2 uniformConst [7] M2 (by decide)⟩
